import Mathlib

/-!
Verification of the zombiesplit time model and split editor.

The definitions below are a shallow embedding of the Rust sources:
  - src/model/time.rs : the Time structure, its addition, parsing, formatting;
  - src/presenter/editor.rs : the Editor state machine and its field editor.
Strings are modelled as List Char, machine integers as Nat with explicit
wrap-around (mod 2 ^ 8 or mod 2 ^ 16) where the Rust arithmetic can
overflow (release-mode wrapping semantics); the one explicit panic point
(an unwrap on a u8 conversion) is modelled as an Option.
-/

/-! ## Decimal digit helpers (model of Rust unsigned integer Display and FromStr) -/

/-- Value of a decimal digit character, if it is one. -/
def digitVal? (c : Char) : Option Nat :=
  if '0' ≤ c ∧ c ≤ '9' then some (c.toNat - 48) else none

/-- Fuelled most-significant-first decimal digit list of a natural number.
The fallback for exhausted fuel is never reached when fuel is at least n. -/
def natDigitsAux : Nat → Nat → List Nat
  | 0, n => [n]
  | fuel + 1, n => if n < 10 then [n] else natDigitsAux fuel (n / 10) ++ [n % 10]

/-- Most-significant-first decimal digits of a natural number. -/
def natDigits (n : Nat) : List Nat := natDigitsAux n n

/-- Decimal string of a natural number, as the Rust Display of an unsigned
integer produces it: no sign, no leading zeroes, a single 0 for zero. -/
def natToChars (n : Nat) : List Char := (natDigits n).map Nat.digitChar

/-- Accumulating parse of a digit sequence; none on the first non-digit. -/
def parseDigitsAux : List Char → Nat → Option Nat
  | [], acc => some acc
  | c :: rest, acc =>
    match digitVal? c with
    | some d => parseDigitsAux rest (10 * acc + d)
    | none => none

/-- Model of Rust unsigned-integer FromStr at a type whose maximum is maxV:
an optional leading plus sign, then a nonempty run of digits; overflow past
maxV is a parse error, as is an empty body or any non-digit. -/
def parseUInt (maxV : Nat) (s : List Char) : Option Nat :=
  let body := match s with
    | [] => []
    | c :: rest => if c = '+' then rest else c :: rest
  match body with
  | [] => none
  | _ =>
    match parseDigitsAux body 0 with
    | some v => if v ≤ maxV then some v else none
    | none => none

/-- Split a character list at the first occurrence of d: the part strictly
before it and the part strictly after it.  Models str::find followed by
split_at and strip of the delimiter in parse_component. -/
def splitFirst (d : Char) : List Char → Option (List Char × List Char)
  | [] => none
  | c :: rest =>
    if c = d then some ([], rest)
    else
      match splitFirst d rest with
      | none => none
      | some (a, b) => some (c :: a, b)

/-! ## The Time model (src/model/time.rs) -/

/-- A hh:mm:ss:ms timing.  Fields are u8 (hours, mins, secs) and u16
(micros) in Rust; here Nat, with bounds stated where theorems need them. -/
structure Time where
  hours : Nat
  mins : Nat
  secs : Nat
  micros : Nat
deriving DecidableEq, Repr

/-- The add_carry helper of time.rs; w is the wrap modulus of the machine
integer type it is instantiated at (2 ^ 8 for u8, 2 ^ 16 for u16), so the
raw sum l + r + carry wraps at w exactly as the Rust addition does in
release mode.  Returns the reduced value and the carry quotient. -/
def add_carry (w l r carry modulo : Nat) : Nat × Nat :=
  ((l + r + carry) % w % modulo,
   ((l + r + carry) % w - (l + r + carry) % w % modulo) / modulo)

/-- Time addition (impl Add for Time).  The u8 conversion of the sub-second
carry is an unwrap in the source, modelled as the one failure point. -/
def Time.add (a b : Time) : Option Time :=
  let m := add_carry 65536 a.micros b.micros 0 1000
  if m.2 ≤ 255 then
    let s := add_carry 256 a.secs b.secs m.2 60
    let mi := add_carry 256 a.mins b.mins s.2 60
    let h := add_carry 256 a.hours b.hours mi.2 255
    some ⟨h.1, mi.1, s.1, m.1⟩
  else
    none

/-- Field positions of the Time structure (enum Field in time.rs). -/
inductive Time.Field where
  | Hours
  | Minutes
  | Seconds
  | Micros
deriving DecidableEq, Repr

/-- Delimiter character of each field (Field::delimiter). -/
def Time.Field.delimiter : Time.Field → Char
  | .Hours => 'h'
  | .Minutes => 'm'
  | .Seconds => 's'
  | .Micros => ' '

/-- Maximum value of each field (Field::max). -/
def Time.Field.max : Time.Field → Nat
  | .Hours => 255
  | .Minutes => 59
  | .Seconds => 59
  | .Micros => 999

/-- Maximum of the machine integer type each field is parsed at in
time.rs: parse_component instantiates parse_inner at u8 for hours,
minutes and seconds, and parse_micros instantiates it at u16. -/
def Time.Field.typeMax : Time.Field → Nat
  | .Hours => 255
  | .Minutes => 255
  | .Seconds => 255
  | .Micros => 65535

/-- Errors of time parsing (enum ParseError in time.rs).  The underlying
integer parse error detail is not tracked, only its occurrence. -/
inductive ParseError where
  | fieldParseError (field : Time.Field)
  | fieldTooBigError (field : Time.Field) (val : Nat) (max : Nat)
deriving DecidableEq, Repr

deriving instance DecidableEq for Except

/-- parse_inner of time.rs: run the integer parse of the machine type
(maximum typeMax), then check the value against the field maximum. -/
def parse_inner (typeMax : Nat) (s : List Char) (field : Time.Field) :
    Except ParseError Nat :=
  match parseUInt typeMax s with
  | none => .error (.fieldParseError field)
  | some v =>
    if v ≤ field.max then .ok v
    else .error (.fieldTooBigError field v field.max)

/-- parse_component of time.rs: find the delimiter of the field; if
present, parse everything before it (as a u8) and return the rest, else
return zero and the whole input. -/
def parse_component (s : List Char) (field : Time.Field) :
    Except ParseError (Nat × List Char) :=
  match splitFirst field.delimiter s with
  | some (fst, rest) =>
    match parse_inner 255 fst field with
    | .ok v => .ok (v, rest)
    | .error e => .error e
  | none => .ok (0, s)

/-- parse_micros of time.rs: empty input is zero, otherwise a u16 parse
checked against the sub-second maximum. -/
def parse_micros (s : List Char) : Except ParseError Nat :=
  match s with
  | [] => .ok 0
  | _ => parse_inner 65535 s .Micros

/-- FromStr for Time: consume the h, m, s components in order, then the
sub-second remainder. -/
def Time.fromStr (s : List Char) : Except ParseError Time :=
  match parse_component s .Hours with
  | .error e => .error e
  | .ok (hours, s1) =>
    match parse_component s1 .Minutes with
    | .error e => .error e
    | .ok (mins, s2) =>
      match parse_component s2 .Seconds with
      | .error e => .error e
      | .ok (secs, s3) =>
        match parse_micros s3 with
        | .error e => .error e
        | .ok micros => .ok ⟨hours, mins, secs, micros⟩

/-- Display for Time: hours and minutes with their delimiters only when
nonzero, seconds always with its delimiter, sub-seconds bare when
nonzero. -/
def Time.format (t : Time) : List Char :=
  (if 0 < t.hours then natToChars t.hours ++ ['h'] else []) ++
  (if 0 < t.mins then natToChars t.mins ++ ['m'] else []) ++
  (natToChars t.secs ++ ['s']) ++
  (if 0 < t.micros then natToChars t.micros else [])

/-- Each field lies within the bound of its position, as representable in
the Rust structure together with the documented per-field maxima. -/
def Time.inBounds (t : Time) : Prop :=
  t.hours ≤ 255 ∧ t.mins ≤ 59 ∧ t.secs ≤ 59 ∧ t.micros ≤ 999

instance (t : Time) : Decidable t.inBounds := by
  unfold Time.inBounds; infer_instance

/-- Modelled from the spec: Default for Time is the zero-valued duration
(the refactored time module holding it is not under src). -/
def Time.default : Time := ⟨0, 0, 0, 0⟩

/-- Modelled from the spec: Time::is_zero is not under src; per the spec a
Time is nonzero when some field is nonzero, so is_zero checks that every
field is zero. -/
def Time.is_zero (t : Time) : Bool :=
  t.hours == 0 && t.mins == 0 && t.secs == 0 && t.micros == 0

/-! ## The editor model (src/presenter/editor.rs) -/

/-- Field position names (time::position::Name), as consumed by the
editor. -/
inductive Position.Name where
  | Hours
  | Minutes
  | Seconds
  | Milliseconds
deriving DecidableEq, Repr

/-- max_digits of editor.rs: digit capacity of the field editor at each
position. -/
def max_digits : Position.Name → Nat
  | .Hours => 0
  | .Minutes => 2
  | .Seconds => 2
  | .Milliseconds => 3

/-- Edit events (event::Edit): append a digit or remove the last one. -/
inductive Edit where
  | Add (x : Nat)
  | Remove
deriving DecidableEq, Repr

/-- Modelled from the spec: the cursor module is not under src.  Per the
spec contract it tracks a position inside a split sequence with indices
0 through max. -/
structure Cursor where
  pos : Nat
  max : Nat
deriving DecidableEq, Repr

/-- Cursor motions; the spec names at least Up and Down. -/
inductive Motion where
  | Up
  | Down
deriving DecidableEq, Repr

/-- Modelled from the spec: Cursor::move_by moves by up to step in the
given direction, truncating at the bounds of the sequence, and returns the
moved cursor together with the distance actually moved (which may be less
than step at a boundary). -/
def Cursor.move_by (c : Cursor) (m : Motion) (step : Nat) : Cursor × Nat :=
  match m with
  | .Up =>
    let actual := Min.min step c.pos
    ({ c with pos := c.pos - actual }, actual)
  | .Down =>
    let actual := Min.min step (c.max - c.pos)
    ({ c with pos := c.pos + actual }, actual)

/-- The split field editor (struct Field in editor.rs): a position and the
digit buffer accumulated so far. -/
structure Editor.Field where
  position : Position.Name
  string : List Char
deriving DecidableEq, Repr

/-- Field::new of editor.rs: a fresh, empty buffer for a position. -/
def Editor.Field.new (position : Position.Name) : Editor.Field :=
  ⟨position, []⟩

/-- Field::add of editor.rs: reject when the buffer already holds
max_digits characters, else push the decimal rendering of the digit
argument (a u8, so possibly several characters). -/
def Editor.Field.add (f : Editor.Field) (digit : Nat) : Editor.Field × Bool :=
  if max_digits f.position ≤ f.string.length then (f, false)
  else ({ f with string := f.string ++ natToChars digit }, true)

/-- Field::remove of editor.rs: pop the last character if there is one. -/
def Editor.Field.remove (f : Editor.Field) : Editor.Field × Bool :=
  match f.string with
  | [] => (f, false)
  | _ => ({ f with string := f.string.dropLast }, true)

/-- Field::edit of editor.rs: dispatch an edit event. -/
def Editor.Field.edit (f : Editor.Field) (e : Edit) : Editor.Field × Bool :=
  match e with
  | .Add x => f.add x
  | .Remove => f.remove

/-- Fold a sequence of edit events over a field editor, keeping the
resulting editor state of each step. -/
def Editor.Field.applyEdits (f : Editor.Field) (es : List Edit) : Editor.Field :=
  es.foldl (fun f e => (f.edit e).1) f

/-- Outcome modes a transition can target: the inactive mode, or the
navigation mode anchored at a cursor. -/
inductive ModeTag where
  | inactive
  | nav (cur : Cursor)
deriving DecidableEq, Repr

/-- mode::EventResult: an event was handled, not handled, or caused a
transition to another mode. -/
inductive EventResult where
  | handled
  | notHandled
  | transition (t : ModeTag)
deriving DecidableEq, Repr

/-- The split editor (struct Editor in editor.rs): a cursor, the time
being edited, and the optional active field editor. -/
structure Editor where
  cur : Cursor
  time : Time
  field : Option Editor.Field
deriving DecidableEq, Repr

/-- Editor::undo of editor.rs: discard the active field editor if any;
otherwise reset a nonzero time to the default; otherwise nothing to do. -/
def Editor.undo (e : Editor) : Editor × EventResult :=
  match e.field with
  | some _ => ({ e with field := none }, .handled)
  | none =>
    if e.time.is_zero then (e, .notHandled)
    else ({ e with time := Time.default }, .handled)

/-- Editor::move_cursor of editor.rs: probe the motion with step 1 on a
copy of the cursor; a Down motion that did not move the full step
transitions to Inactive, anything else transitions to Navigation at the
moved copy.  The editor itself is unchanged. -/
def Editor.move_cursor (e : Editor) (motion : Motion) : Editor × EventResult :=
  let r := e.cur.move_by motion 1
  if r.2 ≠ 1 ∧ motion = .Down then (e, .transition .inactive)
  else (e, .transition (.nav r.1))

/-! ## Lemmas about decimal digits and rendering -/

theorem digitVal_digitChar {d : Nat} (h : d < 10) :
    digitVal? (Nat.digitChar d) = some d := by
  interval_cases d <;> decide

theorem digitChar_isSome {d : Nat} (h : d < 10) :
    (digitVal? (Nat.digitChar d)).isSome := by
  rw [digitVal_digitChar h]; rfl

theorem ne_of_digitVal {c d : Char} (hc : (digitVal? c).isSome)
    (hd : digitVal? d = none) : c ≠ d := by
  intro h; rw [h, hd] at hc; simp at hc

theorem natDigitsAux_ne_nil (fuel n : Nat) : natDigitsAux fuel n ≠ [] := by
  cases fuel with
  | zero => simp [natDigitsAux]
  | succ fuel =>
    by_cases h : n < 10 <;> simp [natDigitsAux, h]

theorem natDigitsAux_mem (fuel : Nat) : ∀ n, n ≤ fuel ∨ n < 10 →
    ∀ d ∈ natDigitsAux fuel n, d < 10 := by
  induction fuel with
  | zero =>
    intro n hn d hd
    have : n < 10 := by omega
    simp [natDigitsAux] at hd
    omega
  | succ fuel ih =>
    intro n hn d hd
    by_cases h : n < 10
    · simp [natDigitsAux, h] at hd; omega
    · simp only [natDigitsAux, if_neg h, List.mem_append, List.mem_singleton] at hd
      rcases hd with hd | hd
      · have hdiv : n / 10 < n := Nat.div_lt_self (by omega) (by omega)
        exact ih (n / 10) (by omega) d hd
      · omega

theorem natDigitsAux_foldl (fuel : Nat) : ∀ n, n ≤ fuel ∨ n < 10 → ∀ acc,
    (natDigitsAux fuel n).foldl (fun a d => 10 * a + d) acc =
      acc * 10 ^ (natDigitsAux fuel n).length + n := by
  induction fuel with
  | zero =>
    intro n hn acc
    simp [natDigitsAux]
    omega
  | succ fuel ih =>
    intro n hn acc
    by_cases h : n < 10
    · simp [natDigitsAux, h]; omega
    · have hdiv : n / 10 < n := Nat.div_lt_self (by omega) (by omega)
      simp only [natDigitsAux, if_neg h, List.foldl_append, List.length_append,
        List.foldl_cons, List.foldl_nil, List.length_cons, List.length_nil]
      rw [ih (n / 10) (by omega) acc]
      have hmod : 10 * (n / 10) + n % 10 = n := Nat.div_add_mod n 10
      have hpow : 10 ^ ((natDigitsAux fuel (n / 10)).length + (0 + 1)) =
          10 ^ (natDigitsAux fuel (n / 10)).length * 10 := by
        rw [Nat.zero_add, pow_succ]
      rw [hpow]
      ring_nf
      omega

theorem natDigits_ne_nil (n : Nat) : natDigits n ≠ [] :=
  natDigitsAux_ne_nil n n

theorem natDigits_mem {n d : Nat} (hd : d ∈ natDigits n) : d < 10 :=
  natDigitsAux_mem n n (Or.inl (Nat.le_refl n)) d hd

theorem natDigits_foldl (n : Nat) :
    (natDigits n).foldl (fun a d => 10 * a + d) 0 = n := by
  have := natDigitsAux_foldl n n (Or.inl (Nat.le_refl n)) 0
  simpa [natDigits] using this

theorem natToChars_ne_nil (n : Nat) : natToChars n ≠ [] := by
  simp [natToChars, natDigits_ne_nil n]

theorem natToChars_isSome {n : Nat} {c : Char} (hc : c ∈ natToChars n) :
    (digitVal? c).isSome := by
  simp only [natToChars, List.mem_map] at hc
  obtain ⟨d, hd, rfl⟩ := hc
  exact digitChar_isSome (natDigits_mem hd)

theorem parseDigitsAux_map : ∀ ds : List Nat, (∀ d ∈ ds, d < 10) → ∀ acc,
    parseDigitsAux (ds.map Nat.digitChar) acc =
      some (ds.foldl (fun a d => 10 * a + d) acc) := by
  intro ds
  induction ds with
  | nil => intro _ acc; rfl
  | cons d ds ih =>
    intro hds acc
    have hd : d < 10 := hds d (List.mem_cons_self d ds)
    simp only [List.map_cons, parseDigitsAux, digitVal_digitChar hd, List.foldl_cons]
    exact ih (fun x hx => hds x (List.mem_cons_of_mem d hx)) (10 * acc + d)

theorem parseDigitsAux_natToChars (n : Nat) :
    parseDigitsAux (natToChars n) 0 = some n := by
  rw [natToChars, parseDigitsAux_map (natDigits n) (fun d hd => natDigits_mem hd) 0,
    natDigits_foldl]

theorem parseUInt_natToChars {maxV n : Nat} (h : n ≤ maxV) :
    parseUInt maxV (natToChars n) = some n := by
  obtain ⟨c, cs, hcs⟩ : ∃ c cs, natToChars n = c :: cs := by
    cases hx : natToChars n with
    | nil => exact absurd hx (natToChars_ne_nil n)
    | cons c cs => exact ⟨c, cs, rfl⟩
  have hcne : c ≠ '+' := by
    have : (digitVal? c).isSome := natToChars_isSome (hcs ▸ List.mem_cons_self c cs)
    exact ne_of_digitVal this (by decide)
  have hparse := parseDigitsAux_natToChars n
  rw [hcs] at hparse
  simp only [parseUInt, hcs, if_neg hcne, hparse, if_pos h]

/-! ## Lemmas about delimiter splitting and component parsing -/

theorem splitFirst_eq_none {d : Char} : ∀ {s : List Char},
    (∀ c ∈ s, c ≠ d) → splitFirst d s = none := by
  intro s
  induction s with
  | nil => intro _; rfl
  | cons c rest ih =>
    intro h
    have hc : c ≠ d := h c (List.mem_cons_self c rest)
    have hrest := ih (fun x hx => h x (List.mem_cons_of_mem c hx))
    simp [splitFirst, if_neg hc, hrest]

theorem splitFirst_append {d : Char} : ∀ {a : List Char} (b : List Char),
    (∀ c ∈ a, c ≠ d) → splitFirst d (a ++ d :: b) = some (a, b) := by
  intro a
  induction a with
  | nil => intro b _; simp [splitFirst]
  | cons c a ih =>
    intro b h
    have hc : c ≠ d := h c (List.mem_cons_self c a)
    have ha := ih b (fun x hx => h x (List.mem_cons_of_mem c hx))
    simp [splitFirst, if_neg hc, ha]

theorem digitVal_delimiter (f : Time.Field) : digitVal? f.delimiter = none := by
  cases f <;> decide

theorem parse_inner_natToChars {typeMax : Nat} (f : Time.Field) {v : Nat}
    (h1 : v ≤ typeMax) (h2 : v ≤ f.max) :
    parse_inner typeMax (natToChars v) f = .ok v := by
  rw [parse_inner, parseUInt_natToChars h1]
  simp [if_pos h2]

theorem parse_component_delim (f : Time.Field) {v : Nat} (rest : List Char)
    (hv : v ≤ 255) (hvmax : v ≤ f.max) :
    parse_component (natToChars v ++ f.delimiter :: rest) f = .ok (v, rest) := by
  have hnod : ∀ c ∈ natToChars v, c ≠ f.delimiter := fun c hc =>
    ne_of_digitVal (natToChars_isSome hc) (digitVal_delimiter f)
  have hsplit := splitFirst_append (d := f.delimiter) rest hnod
  rw [parse_component]
  simp only [hsplit, parse_inner_natToChars f hv hvmax]

theorem parse_component_absent (f : Time.Field) {s : List Char}
    (h : ∀ c ∈ s, c ≠ f.delimiter) :
    parse_component s f = .ok (0, s) := by
  rw [parse_component, splitFirst_eq_none h]

theorem parse_inner_le {typeMax : Nat} {s : List Char} {f : Time.Field} {v : Nat}
    (h : parse_inner typeMax s f = .ok v) : v ≤ f.max := by
  rw [parse_inner] at h
  split at h
  · cases h
  · split at h
    · cases h; assumption
    · cases h

theorem parse_component_le {s : List Char} {f : Time.Field} {v : Nat}
    {r : List Char} (h : parse_component s f = .ok (v, r)) : v ≤ f.max := by
  rw [parse_component] at h
  split at h
  · split at h
    · cases h
      exact parse_inner_le (by assumption)
    · cases h
  · cases h
    exact Nat.zero_le _

theorem parse_micros_le {s : List Char} {v : Nat}
    (h : parse_micros s = .ok v) : v ≤ 999 := by
  cases s with
  | nil => cases h; exact Nat.zero_le _
  | cons c rest => exact parse_inner_le h

theorem fromStr_inBounds {s : List Char} {t : Time}
    (h : Time.fromStr s = .ok t) : t.inBounds := by
  rw [Time.fromStr] at h
  split at h
  · cases h
  · split at h
    · cases h
    · split at h
      · cases h
      · split at h
        · cases h
        · cases h
          refine ⟨?_, ?_, ?_, parse_micros_le (by assumption)⟩
          · exact parse_component_le (f := .Hours) (by assumption)
          · exact parse_component_le (f := .Minutes) (by assumption)
          · exact parse_component_le (f := .Seconds) (by assumption)

theorem fromStr_format {t : Time} (hb : t.inBounds) :
    Time.fromStr (Time.format t) = .ok t := by
  obtain ⟨h1, h2, h3, h4⟩ := hb
  set U : List Char := if 0 < t.micros then natToChars t.micros else [] with hUdef
  set S2 : List Char := natToChars t.secs ++ 's' :: U with hS2def
  set S1 : List Char :=
    (if 0 < t.mins then natToChars t.mins ++ ['m'] else []) ++ S2 with hS1def
  have hU_digit : ∀ c ∈ U, (digitVal? c).isSome := by
    rw [hUdef]
    split
    · exact fun c hc => natToChars_isSome hc
    · intro c hc; cases hc
  have hS2_digit : ∀ c ∈ S2, (digitVal? c).isSome ∨ c = 's' := by
    rw [hS2def]
    intro c hc
    rcases List.mem_append.mp hc with hc | hc
    · exact Or.inl (natToChars_isSome hc)
    · rcases List.mem_cons.mp hc with rfl | hc
      · exact Or.inr rfl
      · exact Or.inl (hU_digit c hc)
  have hS1_digit : ∀ c ∈ S1, (digitVal? c).isSome ∨ c = 's' ∨ c = 'm' := by
    rw [hS1def]
    intro c hc
    rcases List.mem_append.mp hc with hc | hc
    · split at hc
      · rcases List.mem_append.mp hc with hc | hc
        · exact Or.inl (natToChars_isSome hc)
        · rcases List.mem_cons.mp hc with rfl | hc
          · exact Or.inr (Or.inr rfl)
          · cases hc
      · cases hc
    · rcases hS2_digit c hc with h | h
      · exact Or.inl h
      · exact Or.inr (Or.inl h)
  have hu : parse_micros U = .ok t.micros := by
    rw [hUdef]
    split
    · obtain ⟨c, cs, hcs⟩ : ∃ c cs, natToChars t.micros = c :: cs := by
        cases hx : natToChars t.micros with
        | nil => exact absurd hx (natToChars_ne_nil _)
        | cons c cs => exact ⟨c, cs, rfl⟩
      rw [hcs]
      show parse_inner 65535 (c :: cs) .Micros = .ok t.micros
      rw [← hcs]
      exact parse_inner_natToChars .Micros (by omega) h4
    · rename_i hneg
      have hz : t.micros = 0 := by omega
      rw [hz]
      rfl
  have hs : parse_component S2 .Seconds = .ok (t.secs, U) := by
    rw [hS2def]
    exact parse_component_delim .Seconds U (by omega) h3
  have hm : parse_component S1 .Minutes = .ok (t.mins, S2) := by
    rw [hS1def]
    split
    · rw [List.append_assoc]
      exact parse_component_delim .Minutes S2 (by omega) h2
    · rename_i hneg
      have hz : t.mins = 0 := by omega
      rw [List.nil_append, hz]
      refine parse_component_absent .Minutes ?_
      intro c hc
      rcases hS2_digit c hc with h | rfl
      · exact ne_of_digitVal h (by decide)
      · decide
  have hfmt : Time.format t =
      (if 0 < t.hours then natToChars t.hours ++ ['h'] else []) ++ S1 := by
    rw [Time.format, hS1def, hS2def]
    simp [List.append_assoc]
  have hcomp : parse_component (Time.format t) .Hours = .ok (t.hours, S1) := by
    rw [hfmt]
    split
    · rw [List.append_assoc]
      exact parse_component_delim .Hours S1 h1 h1
    · rename_i hneg
      have hz : t.hours = 0 := by omega
      rw [List.nil_append, hz]
      refine parse_component_absent .Hours ?_
      intro c hc
      rcases hS1_digit c hc with h | rfl | rfl
      · exact ne_of_digitVal h (by decide)
      · decide
      · decide
  simp only [Time.fromStr, hcomp, hm, hs, hu]

/-! ## Claim theorems -/

/-- Claim C1: round-trip on value.  Every string s that parses to a Time t
has the property that formatting t and re-parsing the formatted output
yields a Time whose hours, minutes, seconds and sub-second fields all
equal those of t. -/
theorem c1_round_trip_on_value (s : List Char) (t : Time)
    (h : Time.fromStr s = .ok t) :
    ∃ t2, Time.fromStr (Time.format t) = .ok t2 ∧
      t2.hours = t.hours ∧ t2.mins = t.mins ∧
      t2.secs = t.secs ∧ t2.micros = t.micros :=
  ⟨t, fromStr_format (fromStr_inBounds h), rfl, rfl, rfl, rfl⟩

/-- Witness for C1 at the concrete input 1h2m3s456. -/
theorem c1_round_trip_on_value_witness :
    ∃ t2, Time.fromStr (Time.format ⟨1, 2, 3, 456⟩) = .ok t2 ∧
      t2.hours = (1 : Nat) ∧ t2.mins = (2 : Nat) ∧
      t2.secs = (3 : Nat) ∧ t2.micros = (456 : Nat) :=
  c1_round_trip_on_value (['1', 'h', '2', 'm', '3', 's', '4', '5', '6'])
    ⟨1, 2, 3, 456⟩ (by decide)

/-- Claim C2: time addition processes fields finest to coarsest, adding
the two field values plus the incoming carry, keeping the remainder
modulo the field capacity (1000 sub-seconds, 60 seconds, 60 minutes) and
propagating the quotient as carry into the next coarser field, in the
order sub-second, second, minute, hour; in particular 59s plus 2s is
1m1s. -/
theorem c2_addition_carry_chain :
    (∀ a b : Time, a.inBounds → b.inBounds →
      Time.add a b = some
        ⟨((a.hours + b.hours +
            (a.mins + b.mins +
              (a.secs + b.secs + (a.micros + b.micros) / 1000) / 60) / 60) % 256) % 255,
         (a.mins + b.mins +
           (a.secs + b.secs + (a.micros + b.micros) / 1000) / 60) % 60,
         (a.secs + b.secs + (a.micros + b.micros) / 1000) % 60,
         (a.micros + b.micros) % 1000⟩) ∧
    Time.add ⟨0, 0, 59, 0⟩ ⟨0, 0, 2, 0⟩ = some ⟨0, 1, 1, 0⟩ := by
  constructor
  · intro a b hA hB
    obtain ⟨ha1, ha2, ha3, ha4⟩ := hA
    obtain ⟨hb1, hb2, hb3, hb4⟩ := hB
    rw [Time.add]
    simp only [add_carry]
    split
    · simp only [Option.some.injEq, Time.mk.injEq]
      refine ⟨?_, ?_, ?_, ?_⟩ <;> omega
    · rename_i hcond
      exfalso
      omega
  · decide

/-- Witness for C2 at concrete operands 1h2m3s456 and 59s700. -/
theorem c2_addition_carry_chain_witness :
    Time.add ⟨1, 2, 3, 456⟩ ⟨0, 0, 59, 700⟩ = some ⟨1, 3, 3, 156⟩ := by
  have h := c2_addition_carry_chain.1 ⟨1, 2, 3, 456⟩ ⟨0, 0, 59, 700⟩
    (by decide) (by decide)
  exact h.trans (by decide)

/-- Claim C3: for operands whose fields lie within their position bounds,
addition always runs to completion and returns a Time: no error and no
panic (in particular the u8 conversion of the sub-second carry, the one
explicit unwrap, always succeeds). -/
theorem c3_add_total (a b : Time) (hA : a.inBounds) (hB : b.inBounds) :
    ∃ t, Time.add a b = some t := by
  obtain ⟨ha1, ha2, ha3, ha4⟩ := hA
  obtain ⟨hb1, hb2, hb3, hb4⟩ := hB
  rw [Time.add]
  simp only [add_carry]
  split
  · exact ⟨_, rfl⟩
  · rename_i hcond
    exfalso
    omega

/-- Witness for C3 at concrete operands. -/
theorem c3_add_total_witness :
    ∃ t, Time.add ⟨4, 5, 6, 789⟩ ⟨250, 59, 59, 999⟩ = some t :=
  c3_add_total ⟨4, 5, 6, 789⟩ ⟨250, 59, 59, 999⟩ (by decide) (by decide)

/-- Counterexample for C4: the claim states the hour field is reduced
modulo 256 (max plus one); at operands with hours 255 and 0 that would
give 255, but the code reduces modulo 255 and yields hour 0. -/
theorem c4_hours_counterexample :
    Time.add ⟨255, 0, 0, 0⟩ ⟨0, 0, 0, 0⟩ = some ⟨0, 0, 0, 0⟩ ∧
    (255 + 0 + 0) % 256 = 255 := by decide

/-- Claim C4 (amended): the hour field of the result equals the sum of
the two hour operands plus the carry incoming from the minutes step,
wrapped at 256 by the u8 addition, then reduced modulo 255 - the hour
field maximum itself, not its maximum plus one - with the remaining
quotient discarded. -/
theorem c4_hours_mod_255 (a b : Time) (hA : a.inBounds) (hB : b.inBounds) :
    (Time.add a b).map Time.hours = some
      (((a.hours + b.hours +
          (a.mins + b.mins +
            (a.secs + b.secs + (a.micros + b.micros) / 1000) / 60) / 60) % 256) % 255) := by
  obtain ⟨ha1, ha2, ha3, ha4⟩ := hA
  obtain ⟨hb1, hb2, hb3, hb4⟩ := hB
  rw [Time.add]
  simp only [add_carry]
  split
  · simp only [Option.map_some', Option.some.injEq]
    omega
  · rename_i hcond
    exfalso
    omega

/-- Witness for the amended C4 at hours 255 plus hours 0: the result hour
is 0, not 255. -/
theorem c4_hours_mod_255_witness :
    (Time.add ⟨255, 0, 0, 0⟩ ⟨0, 0, 0, 0⟩).map Time.hours = some 0 := by
  have h := c4_hours_mod_255 ⟨255, 0, 0, 0⟩ ⟨0, 0, 0, 0⟩ (by decide) (by decide)
  exact h.trans (by decide)


/-! ## Claims about field parsing -/

theorem parseUInt_le {maxV : Nat} {s : List Char} {v : Nat}
    (h : parseUInt maxV s = some v) : v ≤ maxV := by
  simp only [parseUInt] at h
  split at h
  · cases h
  · split at h
    · split at h
      · cases h; assumption
      · cases h
    · cases h

theorem parseDigitsAux_cons_isSome {c : Char} {rest : List Char} {acc v : Nat}
    (h : parseDigitsAux (c :: rest) acc = some v) : (digitVal? c).isSome := by
  rw [parseDigitsAux] at h
  split at h
  · rename_i d hd
    rw [hd]; rfl
  · cases h

theorem parseDigitsAux_all_digits : ∀ {s : List Char} {acc v : Nat},
    parseDigitsAux s acc = some v → ∀ c ∈ s, (digitVal? c).isSome := by
  intro s
  induction s with
  | nil => intro acc v h c hc; cases hc
  | cons d rest ih =>
    intro acc v h c hc
    have hd := parseDigitsAux_cons_isSome h
    rcases List.mem_cons.mp hc with rfl | hc
    · exact hd
    · rw [parseDigitsAux] at h
      split at h
      · exact ih h c hc
      · cases h

/-- Claim C5: for every field position, an input string whose integer
parse (at the machine type of that position) succeeds with a value above
the position maximum makes field parsing fail with FieldTooBig carrying
the offending value and the maximum; and every successful field parse
yields a value at most the position maximum. -/
theorem c5_field_too_big :
    (∀ (f : Time.Field) (s : List Char) (v : Nat),
      parseUInt f.typeMax s = some v → f.max < v →
      parse_inner f.typeMax s f = .error (.fieldTooBigError f v f.max)) ∧
    (∀ (f : Time.Field) (s : List Char) (w : Nat),
      parse_inner f.typeMax s f = .ok w → w ≤ f.max) := by
  constructor
  · intro f s v hp hv
    rw [parse_inner]
    simp only [hp]
    rw [if_neg (by omega)]
  · intro f s w h
    exact parse_inner_le h

/-- Witness for C5: minutes reject 60 with FieldTooBig, and a successful
seconds parse is bounded. -/
theorem c5_field_too_big_witness :
    parse_inner Time.Field.Minutes.typeMax ['6', '0'] Time.Field.Minutes =
      .error (.fieldTooBigError .Minutes 60 59) ∧
    (∀ w, parse_inner Time.Field.Seconds.typeMax ['5', '9'] Time.Field.Seconds =
      .ok w → w ≤ 59) :=
  ⟨c5_field_too_big.1 .Minutes ['6', '0'] 60 (by decide) (by decide),
   fun w h => c5_field_too_big.2 .Seconds ['5', '9'] w h⟩

/-- Claim C10: hour parsing can never produce FieldTooBig, because the
u8 parse range coincides with the field maximum 255: any all-digit string
with value above 255 fails the integer parse itself (FieldParse), and any
string that parses as a u8 passes the bound check. -/
theorem c10_hours_parse :
    (∀ (s : List Char) (fx : Time.Field) (v m : Nat),
      parse_inner 255 s .Hours ≠ .error (.fieldTooBigError fx v m)) ∧
    (∀ (s : List Char) (v : Nat), parseDigitsAux s 0 = some v → 255 < v →
      parse_inner 255 s .Hours = .error (.fieldParseError .Hours)) ∧
    (∀ (s : List Char) (v : Nat), parseUInt 255 s = some v →
      parse_inner 255 s .Hours = .ok v) := by
  refine ⟨?_, ?_, ?_⟩
  · intro s fx v m
    rw [parse_inner]
    cases hp : parseUInt 255 s with
    | none => simp
    | some w =>
      have hw : w ≤ 255 := parseUInt_le hp
      simp only []
      rw [if_pos (show w ≤ Time.Field.max .Hours from hw)]
      simp
  · intro s v hd hv
    rw [parse_inner]
    have hnone : parseUInt 255 s = none := by
      cases s with
      | nil =>
        simp [parseDigitsAux] at hd
        omega
      | cons c cs =>
        have hc : (digitVal? c).isSome := parseDigitsAux_cons_isSome hd
        have hcp : c ≠ '+' := ne_of_digitVal hc (by decide)
        simp only [parseUInt, if_neg hcp]
        rw [hd]
        show (if v ≤ 255 then some v else none) = none
        rw [if_neg (by omega)]
    rw [hnone]
  · intro s v hp
    rw [parse_inner]
    simp only [hp]
    rw [if_pos (show v ≤ Time.Field.max .Hours from parseUInt_le hp)]

/-- Witness for C10 at the strings 300 and 255. -/
theorem c10_hours_parse_witness :
    parse_inner 255 ['3', '0', '0'] Time.Field.Hours ≠
      .error (.fieldTooBigError .Hours 300 255) ∧
    parse_inner 255 ['3', '0', '0'] Time.Field.Hours =
      .error (.fieldParseError .Hours) ∧
    parse_inner 255 ['2', '5', '5'] Time.Field.Hours = .ok 255 :=
  ⟨c10_hours_parse.1 ['3', '0', '0'] .Hours 300 255,
   c10_hours_parse.2.1 ['3', '0', '0'] 300 (by decide) (by decide),
   c10_hours_parse.2.2 ['2', '5', '5'] 255 (by decide)⟩

/-- Counterexample for C6: the all-digit, delimiter-free string 1000 does
not parse to a Time at all; it fails with FieldTooBig because its value
exceeds the sub-second maximum 999, contradicting the claim that every
nonempty all-digit string parses with that integer as sub-seconds. -/
theorem c6_counterexample :
    Time.fromStr ['1', '0', '0', '0'] =
      .error (.fieldTooBigError .Micros 1000 999) := by decide

/-- Claim C6 (amended): a nonempty all-digit string with no delimiters
whose value is at most 999 parses to a Time with exactly that sub-second
value and zero hours, minutes and seconds, and the empty string parses to
the all-zero Time. -/
theorem c6_no_delimiters :
    (∀ (s : List Char) (v : Nat), s ≠ [] → parseDigitsAux s 0 = some v →
      v ≤ 999 → Time.fromStr s = .ok ⟨0, 0, 0, v⟩) ∧
    Time.fromStr [] = .ok ⟨0, 0, 0, 0⟩ := by
  constructor
  · intro s v hne hd hv
    have hall : ∀ c ∈ s, (digitVal? c).isSome := parseDigitsAux_all_digits hd
    have hH : parse_component s .Hours = .ok (0, s) :=
      parse_component_absent .Hours
        (fun c hc => ne_of_digitVal (hall c hc) (by decide))
    have hM : parse_component s .Minutes = .ok (0, s) :=
      parse_component_absent .Minutes
        (fun c hc => ne_of_digitVal (hall c hc) (by decide))
    have hS : parse_component s .Seconds = .ok (0, s) :=
      parse_component_absent .Seconds
        (fun c hc => ne_of_digitVal (hall c hc) (by decide))
    have hU : parse_micros s = .ok v := by
      cases s with
      | nil => exact absurd rfl hne
      | cons c cs =>
        show parse_inner 65535 (c :: cs) .Micros = .ok v
        have hc : (digitVal? c).isSome := parseDigitsAux_cons_isSome hd
        have hcp : c ≠ '+' := ne_of_digitVal hc (by decide)
        have hp : parseUInt 65535 (c :: cs) = some v := by
          simp only [parseUInt, if_neg hcp]
          rw [hd]
          show (if v ≤ 65535 then some v else none) = some v
          rw [if_pos (by omega)]
        rw [parse_inner]
        simp only [hp]
        rw [if_pos (show v ≤ Time.Field.max .Micros from hv)]
    simp only [Time.fromStr, hH, hM, hS, hU]
  · decide

/-- Witness for the amended C6 at the string 123. -/
theorem c6_no_delimiters_witness :
    Time.fromStr ['1', '2', '3'] = .ok ⟨0, 0, 0, 123⟩ :=
  c6_no_delimiters.1 ['1', '2', '3'] 123 (by decide) (by decide) (by decide)

/-! ## Claims about the editor -/

theorem natDigits_lt10 {d : Nat} (h : d < 10) : natDigits d = [d] := by
  cases d with
  | zero => rfl
  | succ n => simp [natDigits, natDigitsAux, h]

theorem natToChars_length_lt10 {d : Nat} (h : d < 10) :
    (natToChars d).length = 1 := by
  rw [natToChars, natDigits_lt10 h]
  rfl

theorem Field_edit_position (f : Editor.Field) (e : Edit) :
    ((f.edit e).1).position = f.position := by
  cases e with
  | Add d =>
    show ((f.add d).1).position = f.position
    rw [Editor.Field.add]
    split <;> rfl
  | Remove =>
    show ((f.remove).1).position = f.position
    rw [Editor.Field.remove]
    split <;> rfl

theorem Field_edit_length {f : Editor.Field} {e : Edit}
    (hinv : f.string.length ≤ max_digits f.position)
    (hdig : ∀ d, e = Edit.Add d → d < 10) :
    ((f.edit e).1).string.length ≤ max_digits f.position := by
  cases e with
  | Add d =>
    have hd : d < 10 := hdig d rfl
    show ((f.add d).1).string.length ≤ _
    rw [Editor.Field.add]
    split
    · exact hinv
    · rename_i hlt
      simp only [List.length_append, natToChars_length_lt10 hd]
      omega
  | Remove =>
    show ((f.remove).1).string.length ≤ _
    rw [Editor.Field.remove]
    split
    · exact hinv
    · simp only [List.length_dropLast]
      omega

theorem applyEdits_length : ∀ (es : List Edit) (f : Editor.Field),
    f.string.length ≤ max_digits f.position →
    (∀ d, Edit.Add d ∈ es → d < 10) →
    ((f.applyEdits es).string.length ≤ max_digits (f.applyEdits es).position ∧
      (f.applyEdits es).position = f.position) := by
  intro es
  induction es with
  | nil => intro f h _; exact ⟨h, rfl⟩
  | cons e es ih =>
    intro f h hds
    have hstep : ((f.edit e).1).string.length ≤ max_digits ((f.edit e).1).position := by
      rw [Field_edit_position]
      exact Field_edit_length h
        (fun d hd => hds d (by rw [← hd] at *; exact List.mem_cons_self e es))
    have hrec := ih (f.edit e).1 hstep
      (fun d hd => hds d (List.mem_cons_of_mem e hd))
    refine ⟨hrec.1, ?_⟩
    rw [show f.applyEdits (e :: es) = ((f.edit e).1).applyEdits es from rfl]
    rw [hrec.2, Field_edit_position]

/-- Claim C7 (amended): for every sequence of edit events whose Add
arguments are decimal digits (below 10), the buffer of a field editor
never exceeds the digit capacity of its position; an Add at capacity is
rejected with the buffer unchanged, and a Remove on an empty buffer is
rejected. -/
theorem c7_field_editor_capacity :
    (∀ (p : Position.Name) (es : List Edit),
      (∀ d, Edit.Add d ∈ es → d < 10) →
      (((Editor.Field.new p).applyEdits es).string.length ≤ max_digits p)) ∧
    (∀ (f : Editor.Field) (d : Nat),
      max_digits f.position ≤ f.string.length → f.add d = (f, false)) ∧
    (∀ f : Editor.Field, f.string = [] → f.remove = (f, false)) := by
  refine ⟨?_, ?_, ?_⟩
  · intro p es hds
    have h := applyEdits_length es (Editor.Field.new p)
      (by simp [Editor.Field.new]) hds
    rw [h.2] at h
    exact h.1
  · intro f d h
    rw [Editor.Field.add, if_pos h]
  · intro f h
    rw [Editor.Field.remove, h]

/-- Witness for the amended C7: three digit adds on a seconds editor stay
within capacity, an add at capacity is rejected, a remove on empty is
rejected. -/
theorem c7_field_editor_capacity_witness :
    ((Editor.Field.new .Seconds).applyEdits
      [Edit.Add 5, Edit.Add 9, Edit.Add 3]).string.length ≤
        max_digits Position.Name.Seconds ∧
    Editor.Field.add ⟨.Seconds, ['5', '9']⟩ 3 = (⟨.Seconds, ['5', '9']⟩, false) ∧
    Editor.Field.remove ⟨.Minutes, []⟩ = (⟨.Minutes, []⟩, false) :=
  ⟨c7_field_editor_capacity.1 .Seconds [Edit.Add 5, Edit.Add 9, Edit.Add 3]
      (by intro d hd; simp at hd; omega),
   c7_field_editor_capacity.2.1 ⟨.Seconds, ['5', '9']⟩ 3 (by decide),
   c7_field_editor_capacity.2.2 ⟨.Minutes, []⟩ rfl⟩

/-- Counterexample for C7 as stated for arbitrary u8 digits: adding the
u8 value 255 to a fresh seconds editor pushes its three-character decimal
rendering, reports acceptance, and leaves the buffer at length 3, above
the seconds capacity of 2. -/
theorem c7_counterexample :
    ((Editor.Field.new .Seconds).add 255).1.string.length = 3 ∧
    ((Editor.Field.new .Seconds).add 255).2 = true ∧
    max_digits Position.Name.Seconds = 2 := by decide

/-- Claim C8: Undo is two-staged.  With an active field editor it
discards only the editor and reports Handled, leaving the time untouched;
with no field editor and a nonzero time it resets the time to zero and
reports Handled; with no field editor and a zero time it changes nothing
and reports NotHandled. -/
theorem c8_undo_two_staged (e : Editor) :
    (∀ f0, e.field = some f0 →
      e.undo = ({ e with field := none }, EventResult.handled)) ∧
    (e.field = none → e.time.is_zero = false →
      e.undo = ({ e with time := Time.default }, EventResult.handled)) ∧
    (e.field = none → e.time.is_zero = true →
      e.undo = (e, EventResult.notHandled)) := by
  refine ⟨?_, ?_, ?_⟩
  · intro f0 hf
    simp only [Editor.undo, hf]
  · intro hf hz
    simp only [Editor.undo, hf, hz]
    rfl
  · intro hf hz
    simp only [Editor.undo, hf, hz]
    rfl

/-- Witness for C8: the three stages at concrete editors. -/
theorem c8_undo_two_staged_witness :
    Editor.undo ⟨⟨0, 5⟩, ⟨1, 2, 3, 4⟩, some (Editor.Field.new .Seconds)⟩ =
      (⟨⟨0, 5⟩, ⟨1, 2, 3, 4⟩, none⟩, EventResult.handled) ∧
    Editor.undo ⟨⟨0, 5⟩, ⟨1, 2, 3, 4⟩, none⟩ =
      (⟨⟨0, 5⟩, ⟨0, 0, 0, 0⟩, none⟩, EventResult.handled) ∧
    Editor.undo ⟨⟨0, 5⟩, ⟨0, 0, 0, 0⟩, none⟩ =
      (⟨⟨0, 5⟩, ⟨0, 0, 0, 0⟩, none⟩, EventResult.notHandled) :=
  ⟨(c8_undo_two_staged _).1 (Editor.Field.new .Seconds) rfl,
   (c8_undo_two_staged _).2.1 rfl (by decide),
   (c8_undo_two_staged _).2.2 rfl (by decide)⟩

/-- Claim C9: handling a cursor motion always produces a transition and
never NotHandled; the editor itself (cursor, time, field) is unchanged;
a Down motion whose actual distance differs from the requested step of 1
transitions to Inactive, and any other outcome transitions to Navigation
anchored at the moved cursor copy. -/
theorem c9_cursor_motion (e : Editor) (m : Motion) :
    ((e.move_cursor m).1 = e) ∧
    (∃ tr, (e.move_cursor m).2 = EventResult.transition tr) ∧
    ((e.move_cursor m).2 =
      if (e.cur.move_by m 1).2 ≠ 1 ∧ m = Motion.Down
      then EventResult.transition ModeTag.inactive
      else EventResult.transition (ModeTag.nav (e.cur.move_by m 1).1)) := by
  refine ⟨?_, ?_, ?_⟩
  · simp only [Editor.move_cursor]
    split <;> rfl
  · simp only [Editor.move_cursor]
    split
    · exact ⟨_, rfl⟩
    · exact ⟨_, rfl⟩
  · simp only [Editor.move_cursor]
    split <;> rfl
